import Mathlib

/-!
Verification of the ShadyTimes tide engine (`scripts/tides.js`, `scripts/api.js`).

Shallow embedding conventions:
* JS numbers (tide heights in meters) are modelled as `ℚ`.
* Instants (`Date` values / millisecond timestamps) are modelled as `Int`
  milliseconds; `Math.floor` division is `Int.fdiv`, and the local timezone is
  modelled with offset 0, so `Date.getMinutes` is `(ms.fdiv 60000).emod 60`.
* A JS `Map` built by successive `set` calls is modelled as a function
  `Int → Option ℚ` built by `Function.update` folds (later writes win).
* Fallible/absent values (`null` / `undefined`) are `Option`.
-/

namespace ShadyTimes

/-- A raw API sample: `{ eventDate, value }` (`api.js` rows consumed by
`tides.js`). `eventDate` is the timestamp in milliseconds, `value` the height
in meters. -/
structure RawSample where
  eventDate : Int
  value : ℚ
deriving DecidableEq

/-- A merged sample as produced by `mergeTideData`: `{ time, prediction,
observation }`.  The `timeString` display label of the source is a locale
formatting of `time` and is not modelled. -/
structure TideEntry where
  time : Int
  prediction : ℚ
  observation : Option ℚ
deriving DecidableEq

instance : Inhabited TideEntry := ⟨⟨0, 0, none⟩⟩

/-- The access threshold hardcoded in `findAccessWindows`,
`getCurrentAccessStatus` and `getAccessibilityLevel`: 1.1 m. -/
def accessThreshold : ℚ := 1.1

/-- `entry.prediction <= accessThreshold`, the qualification test of
`findAccessWindows`. -/
def isLow (e : TideEntry) : Bool := e.prediction ≤ accessThreshold

/-- An access window as built by `findAccessWindows`:
`{ start, startTide, entries, end, endTide }` (`end` is rendered `endTime`). -/
structure AccessWindow where
  start : Int
  startTide : ℚ
  entries : List TideEntry
  endTime : Int
  endTide : ℚ
deriving DecidableEq

/-- The `forEach` loop of `findAccessWindows`: `Option AccessWindow` is the
mutable `currentWindow` variable (`none` = JS `null`). A qualifying sample
opens or extends the current window and is appended to `entries`; a
non-qualifying sample emits the open window, if any. -/
def findAccessWindowsAux : Option AccessWindow → List TideEntry → List AccessWindow
  | none, [] => []
  | some w, [] => [w]
  | none, e :: rest =>
    if isLow e then
      findAccessWindowsAux
        (some { start := e.time
                startTide := e.prediction
                entries := [e]
                endTime := e.time
                endTide := e.prediction }) rest
    else
      findAccessWindowsAux none rest
  | some w, e :: rest =>
    if isLow e then
      findAccessWindowsAux
        (some { w with
                entries := w.entries ++ [e]
                endTime := e.time
                endTide := e.prediction }) rest
    else
      w :: findAccessWindowsAux none rest

/-- `findAccessWindows(tideData)` from `tides.js`: sweep the series, collecting
maximal runs of samples with prediction ≤ 1.1 m; close any window left open at
the end. -/
def findAccessWindows (tideData : List TideEntry) : List AccessWindow :=
  findAccessWindowsAux none tideData

/-- Spec-side description of the window contents: the maximal runs of
consecutive samples whose prediction is at or below the threshold, extracted
left to right (a run starts at a qualifying sample and takes the longest
qualifying stretch from there). -/
def maximalLowRuns : List TideEntry → List (List TideEntry)
  | [] => []
  | e :: rest =>
    if isLow e then
      (e :: rest.takeWhile isLow) :: maximalLowRuns (rest.dropWhile isLow)
    else
      maximalLowRuns rest
termination_by l => l.length
decreasing_by
  · exact Nat.lt_succ_of_le ((List.dropWhile_sublist isLow).length_le)
  · exact Nat.lt_succ_of_le (Nat.le_refl _)

/-- The window a (nonempty) run denotes: start/startTide from its first sample,
endTime/endTide from its last, `entries` the run itself. -/
def winOf (f : TideEntry) (os : List TideEntry) : AccessWindow :=
  { start := f.time
    startTide := f.prediction
    entries := f :: os
    endTime := (os.getLastD f).time
    endTide := (os.getLastD f).prediction }

/-- `winOf` applied to a run given as a single list. -/
def mkWindow (r : List TideEntry) : AccessWindow :=
  winOf (r.headD default) r.tail

theorem mkWindow_cons (x : TideEntry) (xs : List TideEntry) :
    mkWindow (x :: xs) = winOf x xs := rfl

theorem winOf_snoc (f e : TideEntry) (os : List TideEntry) :
    winOf f (os ++ [e]) =
      { winOf f os with
        entries := (winOf f os).entries ++ [e]
        endTime := e.time
        endTide := e.prediction } := by
  simp [winOf, List.getLastD_eq_getLast?, List.getLast?_concat]

theorem aux_spec : ∀ n (l : List TideEntry), l.length ≤ n →
    (findAccessWindowsAux none l = (maximalLowRuns l).map mkWindow) ∧
    (∀ (f : TideEntry) (os : List TideEntry),
      findAccessWindowsAux (some (winOf f os)) l =
        winOf f (os ++ l.takeWhile isLow) ::
          (maximalLowRuns (l.dropWhile isLow)).map mkWindow) := by
  intro n
  induction n with
  | zero =>
    intro l hl
    have : l = [] := List.length_eq_zero.mp (Nat.le_zero.mp hl)
    subst this
    exact ⟨by simp [findAccessWindowsAux, maximalLowRuns],
      fun f os => by simp [findAccessWindowsAux, maximalLowRuns]⟩
  | succ n ih =>
    intro l hl
    match l with
    | [] =>
      exact ⟨by simp [findAccessWindowsAux, maximalLowRuns],
        fun f os => by simp [findAccessWindowsAux, maximalLowRuns]⟩
    | e :: t =>
      have ht : t.length ≤ n := Nat.le_of_succ_le_succ hl
      have hdrop : (t.dropWhile isLow).length ≤ n :=
        le_trans ((List.dropWhile_sublist isLow).length_le) ht
      constructor
      · by_cases he : isLow e
        · have h1 : findAccessWindowsAux none (e :: t) =
              findAccessWindowsAux (some (winOf e [])) t := by
            simp [findAccessWindowsAux, he, winOf, List.getLastD]
          rw [h1, (ih t ht).2 e []]
          rw [maximalLowRuns]
          simp [he, mkWindow_cons]
        · have h1 : findAccessWindowsAux none (e :: t) =
              findAccessWindowsAux none t := by
            simp [findAccessWindowsAux, he]
          rw [h1, (ih t ht).1]
          rw [maximalLowRuns]
          simp [he]
      · intro f os
        by_cases he : isLow e
        · have h1 : findAccessWindowsAux (some (winOf f os)) (e :: t) =
              findAccessWindowsAux (some (winOf f (os ++ [e]))) t := by
            simp [findAccessWindowsAux, he, winOf_snoc]
          rw [h1, (ih t ht).2 f (os ++ [e])]
          simp [List.takeWhile_cons, List.dropWhile_cons, he]
        · have h1 : findAccessWindowsAux (some (winOf f os)) (e :: t) =
              winOf f os :: findAccessWindowsAux none t := by
            simp [findAccessWindowsAux, he]
          rw [h1, (ih t ht).1]
          rw [List.takeWhile_cons, List.dropWhile_cons]
          simp only [he, Bool.false_eq_true, if_neg, ite_false]
          rw [maximalLowRuns]
          simp [he]

/-- Refinement: `findAccessWindows` returns exactly the maximal low runs,
packaged as windows. -/
theorem findAccessWindows_eq (l : List TideEntry) :
    findAccessWindows l = (maximalLowRuns l).map mkWindow :=
  (aux_spec l.length l le_rfl).1

/-- The scenario series from the spec: predictions
`[(8:00,1.3),(8:15,1.05),(8:30,0.9),(8:45,1.0),(9:00,1.2)]`, times in
milliseconds since local midnight. -/
def exampleSeries : List TideEntry :=
  [⟨28800000, 1.3, none⟩, ⟨29700000, 1.05, none⟩, ⟨30600000, 0.9, none⟩,
   ⟨31500000, 1, none⟩, ⟨32400000, 1.2, none⟩]

/-- The single window detected on `exampleSeries`: 8:15 to 8:45. -/
def exampleWindow : AccessWindow :=
  { start := 29700000
    startTide := 1.05
    entries := [⟨29700000, 1.05, none⟩, ⟨30600000, 0.9, none⟩,
                ⟨31500000, 1, none⟩]
    endTime := 31500000
    endTide := 1 }

theorem findAccessWindows_example :
    findAccessWindows exampleSeries = [exampleWindow] := by
  norm_num [findAccessWindows, findAccessWindowsAux, isLow, accessThreshold,
    exampleSeries, exampleWindow]

/-- C1: `findAccessWindows` returns exactly the maximal runs of consecutive
samples whose prediction is at or below 1.1 (inclusive), each packaged as a
window whose `start`/`end` are the run's first/last sample times and whose
`entries` are the run's samples; an open window at the end of the series is
emitted.  On the spec's scenario
`[(8:00,1.3),(8:15,1.05),(8:30,0.9),(8:45,1.0),(9:00,1.2)]` the result is
exactly one window spanning 8:15 to 8:45. -/
theorem findAccessWindows_returns_maximal_low_runs :
    (∀ l : List TideEntry, findAccessWindows l = (maximalLowRuns l).map mkWindow) ∧
    findAccessWindows exampleSeries =
      [{ start := 29700000
         startTide := 1.05
         entries := [⟨29700000, 1.05, none⟩, ⟨30600000, 0.9, none⟩,
                     ⟨31500000, 1, none⟩]
         endTime := 31500000
         endTide := 1 }] :=
  ⟨findAccessWindows_eq, findAccessWindows_example⟩

theorem runs_sublist : ∀ (l : List TideEntry) (r : List TideEntry),
    r ∈ maximalLowRuns l → r.Sublist l := by
  intro l
  induction l using maximalLowRuns.induct with
  | case1 => intro r hr; simp [maximalLowRuns] at hr
  | case2 e rest he ih =>
    intro r hr
    rw [maximalLowRuns, if_pos he] at hr
    rcases List.mem_cons.mp hr with h | h
    · subst h
      exact List.Sublist.cons₂ e (List.takeWhile_sublist isLow)
    · exact ((ih r h).trans (List.dropWhile_sublist isLow)).cons e
  | case3 e rest he ih =>
    intro r hr
    rw [maximalLowRuns, if_neg he] at hr
    exact (ih r hr).cons e

theorem runs_ne_nil : ∀ (l : List TideEntry) (r : List TideEntry),
    r ∈ maximalLowRuns l → r ≠ [] := by
  intro l
  induction l using maximalLowRuns.induct with
  | case1 => intro r hr; simp [maximalLowRuns] at hr
  | case2 e rest he ih =>
    intro r hr
    rw [maximalLowRuns, if_pos he] at hr
    rcases List.mem_cons.mp hr with h | h
    · subst h; simp
    · exact ih r h
  | case3 e rest he ih =>
    intro r hr
    rw [maximalLowRuns, if_neg he] at hr
    exact ih r hr

theorem runs_all_low : ∀ (l : List TideEntry) (r : List TideEntry),
    r ∈ maximalLowRuns l → ∀ x ∈ r, isLow x = true := by
  intro l
  induction l using maximalLowRuns.induct with
  | case1 => intro r hr; simp [maximalLowRuns] at hr
  | case2 e rest he ih =>
    intro r hr x hx
    rw [maximalLowRuns, if_pos he] at hr
    rcases List.mem_cons.mp hr with h | h
    · subst h
      rcases List.mem_cons.mp hx with h | h
      · subst h; exact he
      · exact List.mem_takeWhile_imp h
    · exact ih r h x hx
  | case3 e rest he ih =>
    intro r hr x hx
    rw [maximalLowRuns, if_neg he] at hr
    exact ih r hr x hx

/-- Successive runs are separated in time: with a time-sorted input, every
sample of an earlier run is strictly earlier than every sample of a later
run. -/
theorem runs_pairwise : ∀ (l : List TideEntry),
    l.Pairwise (fun a b => a.time < b.time) →
    (maximalLowRuns l).Pairwise
      (fun r1 r2 => ∀ a ∈ r1, ∀ b ∈ r2, a.time < b.time) := by
  intro l
  induction l using maximalLowRuns.induct with
  | case1 => intro _; simp [maximalLowRuns]
  | case2 e rest he ih =>
    intro hp
    rw [maximalLowRuns, if_pos he]
    have hrest : rest.Pairwise (fun a b => a.time < b.time) :=
      (List.pairwise_cons.mp hp).2
    have hcross : ∀ a ∈ rest.takeWhile isLow, ∀ b ∈ rest.dropWhile isLow,
        a.time < b.time := by
      have h2 : (rest.takeWhile isLow ++ rest.dropWhile isLow).Pairwise
          (fun a b => a.time < b.time) := by
        rw [List.takeWhile_append_dropWhile]; exact hrest
      exact fun a ha b hb => (List.pairwise_append.mp h2).2.2 a ha b hb
    refine List.pairwise_cons.mpr ⟨?_, ?_⟩
    · intro r hr a ha b hb
      have hb' : b ∈ rest.dropWhile isLow :=
        (runs_sublist _ r hr).subset hb
      rcases List.mem_cons.mp ha with h | h
      · subst h
        exact (List.pairwise_cons.mp hp).1 b
          ((List.dropWhile_sublist isLow).subset hb')
      · exact hcross a h b hb'
    · exact ih (List.Pairwise.sublist (List.dropWhile_sublist isLow) hrest)
  | case3 e rest he ih =>
    intro hp
    rw [maximalLowRuns, if_neg he]
    exact ih (List.pairwise_cons.mp hp).2

theorem getElem?_dropWhile_zero {α : Type} (p : α → Bool) (l : List α) (q : α) :
    (l.dropWhile p)[0]? = some q → p q = false := by
  intro hq
  have h := List.head?_dropWhile_not p l
  rw [List.head?_eq_getElem?, hq] at h
  exact h

theorem getElem?_takeWhile_length {α : Type} (p : α → Bool) :
    ∀ (l : List α) (q : α), l[(l.takeWhile p).length]? = some q → p q = false := by
  intro l
  induction l with
  | nil => intro q hq; simp at hq
  | cons e t ih =>
    intro q hq
    by_cases hpe : p e
    · rw [List.takeWhile_cons, if_pos hpe] at hq
      simp only [List.length_cons, List.getElem?_cons_succ] at hq
      exact ih q hq
    · rw [List.takeWhile_cons, if_neg hpe] at hq
      simp only [List.length_nil, List.getElem?_cons_zero, Option.some.injEq] at hq
      subst hq
      exact eq_false_of_ne_true hpe

theorem getElem?_takeWhile_eq (p : TideEntry → Bool) :
    ∀ (l : List TideEntry) (j : ℕ), j < (l.takeWhile p).length →
      l[j]? = (l.takeWhile p)[j]? := by
  intro l
  induction l with
  | nil => intro j hj; simp at hj
  | cons e t ih =>
    intro j hj
    by_cases hpe : p e
    · rw [List.takeWhile_cons, if_pos hpe] at hj ⊢
      match j with
      | 0 => simp
      | j + 1 =>
        rw [List.getElem?_cons_succ, List.getElem?_cons_succ]
        exact ih j (Nat.lt_of_succ_lt_succ hj)
    · rw [List.takeWhile_cons, if_neg hpe] at hj
      simp at hj


/-- Positional maximality: every run produced by `maximalLowRuns` occurs
contiguously in the source list, and the samples immediately before and
immediately after it (when they exist) are not low. -/
theorem runs_position : ∀ (l : List TideEntry) (r : List TideEntry),
    r ∈ maximalLowRuns l → ∃ i : ℕ,
      (∀ j : ℕ, j < r.length → l[i + j]? = r[j]?) ∧
      (i = 0 ∨ ∃ p, l[i - 1]? = some p ∧ isLow p = false) ∧
      (∀ q, l[i + r.length]? = some q → isLow q = false) := by
  intro l
  induction l using maximalLowRuns.induct with
  | case1 => intro r hr; simp [maximalLowRuns] at hr
  | case2 e rest he ih =>
    intro r hr
    have hTW : (e :: rest).takeWhile isLow = e :: rest.takeWhile isLow := by
      rw [List.takeWhile_cons, if_pos he]
    rw [maximalLowRuns, if_pos he] at hr
    rcases List.mem_cons.mp hr with h | h
    · subst h
      refine ⟨0, ?_, Or.inl rfl, ?_⟩
      · intro j hj
        rw [Nat.zero_add]
        rw [← hTW] at hj ⊢
        exact getElem?_takeWhile_eq isLow (e :: rest) j hj
      · intro q hq
        rw [Nat.zero_add, ← hTW] at hq
        exact getElem?_takeWhile_length isLow (e :: rest) q hq
    · obtain ⟨i', hocc, hleft, hright⟩ := ih r h
      have hne : r ≠ [] := runs_ne_nil _ r h
      obtain ⟨x, r', rfl⟩ : ∃ x r', r = x :: r' := by
        match r, hne with
        | x :: r', _ => exact ⟨x, r', rfl⟩
      have hi' : i' ≠ 0 := by
        intro h0
        subst h0
        have h1 : (rest.dropWhile isLow)[0]? = some x := by
          simpa using hocc 0 (by simp)
        have h2 : isLow x = false := getElem?_dropWhile_zero isLow rest x h1
        have h3 : isLow x = true :=
          runs_all_low _ _ h x (List.mem_cons_self x r')
        rw [h3] at h2
        simp at h2
      have hsplit : e :: rest =
          (e :: rest.takeWhile isLow) ++ rest.dropWhile isLow := by
        rw [List.cons_append, List.takeWhile_append_dropWhile]
      have happ : ∀ m : ℕ,
          (e :: rest)[(e :: rest.takeWhile isLow).length + m]? =
            (rest.dropWhile isLow)[m]? := by
        intro m
        conv_lhs => rw [hsplit]
        rw [List.getElem?_append_right (Nat.le_add_right _ m)]
        rw [Nat.add_sub_cancel_left]
      refine ⟨(e :: rest.takeWhile isLow).length + i', ?_, ?_, ?_⟩
      · intro j hj
        rw [show (e :: rest.takeWhile isLow).length + i' + j =
            (e :: rest.takeWhile isLow).length + (i' + j) by omega]
        rw [happ (i' + j)]
        exact hocc j hj
      · rcases hleft with h0 | ⟨p, hp1, hp2⟩
        · exact absurd h0 hi'
        · refine Or.inr ⟨p, ?_, hp2⟩
          rw [show (e :: rest.takeWhile isLow).length + i' - 1 =
              (e :: rest.takeWhile isLow).length + (i' - 1) by omega]
          rw [happ (i' - 1)]
          exact hp1
      · intro q hq
        rw [show (e :: rest.takeWhile isLow).length + i' + (x :: r').length =
            (e :: rest.takeWhile isLow).length + (i' + (x :: r').length) by omega,
          happ (i' + (x :: r').length)] at hq
        exact hright q hq
  | case3 e rest he ih =>
    intro r hr
    rw [maximalLowRuns, if_neg he] at hr
    obtain ⟨i, hocc, hleft, hright⟩ := ih r hr
    refine ⟨i + 1, ?_, ?_, ?_⟩
    · intro j hj
      rw [show i + 1 + j = (i + j) + 1 by omega, List.getElem?_cons_succ]
      exact hocc j hj
    · by_cases hi0 : i = 0
      · subst hi0
        exact Or.inr ⟨e, by simp, by simpa using he⟩
      · rcases hleft with h0 | ⟨p, hp1, hp2⟩
        · exact absurd h0 hi0
        · refine Or.inr ⟨p, ?_, hp2⟩
          rw [show i + 1 - 1 = (i - 1) + 1 by omega, List.getElem?_cons_succ]
          exact hp1
    · intro q hq
      rw [show i + 1 + r.length = (i + r.length) + 1 by omega,
        List.getElem?_cons_succ] at hq
      exact hright q hq

/-- With strictly increasing sample times, the detected windows are in
chronological order and each ends strictly before the next starts. -/
theorem windows_sorted (l : List TideEntry)
    (hs : l.Pairwise (fun a b => a.time < b.time)) :
    (findAccessWindows l).Pairwise (fun w1 w2 => w1.endTime < w2.start) := by
  rw [findAccessWindows_eq, List.pairwise_map]
  refine List.Pairwise.imp_of_mem ?_ (runs_pairwise l hs)
  intro r1 r2 h1 h2 hlt
  obtain ⟨x1, xs1, rfl⟩ := List.exists_cons_of_ne_nil (runs_ne_nil l _ h1)
  obtain ⟨x2, xs2, rfl⟩ := List.exists_cons_of_ne_nil (runs_ne_nil l _ h2)
  rw [mkWindow_cons, mkWindow_cons]
  exact hlt _ (List.getLastD_mem_cons xs1 x1) x2 (List.mem_cons_self _ _)

/-- With strictly increasing sample times, each detected window satisfies
`start ≤ end`. -/
theorem windows_start_le_endTime (l : List TideEntry)
    (hs : l.Pairwise (fun a b => a.time < b.time)) :
    ∀ w ∈ findAccessWindows l, w.start ≤ w.endTime := by
  intro w hw
  rw [findAccessWindows_eq] at hw
  obtain ⟨r, hr, rfl⟩ := List.mem_map.mp hw
  obtain ⟨x, xs, rfl⟩ := List.exists_cons_of_ne_nil (runs_ne_nil l _ hr)
  rw [mkWindow_cons]
  have hpr : (x :: xs).Pairwise (fun a b => a.time < b.time) :=
    List.Pairwise.sublist (runs_sublist l _ hr) hs
  rcases List.mem_cons.mp (List.getLastD_mem_cons xs x) with hm | hm
  · rw [winOf, hm]
  · exact le_of_lt ((List.pairwise_cons.mp hpr).1 _ hm)

/-- C7: on a series with strictly increasing sample times, the windows returned
by `findAccessWindows` are chronologically ordered and pairwise non-overlapping
(each window ends strictly before the next starts); each window satisfies
`start ≤ end`; every sample in a window's `entries` has prediction ≤ 1.1; and
the source-series samples immediately before a window's first entry and
immediately after its last entry, when they exist, have prediction > 1.1. -/
theorem findAccessWindows_window_invariants (l : List TideEntry)
    (hs : l.Pairwise (fun a b => a.time < b.time)) :
    (findAccessWindows l).Pairwise (fun w1 w2 => w1.endTime < w2.start) ∧
    (∀ w ∈ findAccessWindows l, w.start ≤ w.endTime ∧
      (∀ e ∈ w.entries, e.prediction ≤ accessThreshold)) ∧
    (∀ w ∈ findAccessWindows l, ∃ i : ℕ,
      w.entries.head? = l[i]? ∧
      w.entries.getLast? = l[i + w.entries.length - 1]? ∧
      (∀ p, i ≠ 0 → l[i - 1]? = some p → accessThreshold < p.prediction) ∧
      (∀ q, l[i + w.entries.length]? = some q →
        accessThreshold < q.prediction)) := by
  refine ⟨windows_sorted l hs, ?_, ?_⟩
  · intro w hw
    refine ⟨windows_start_le_endTime l hs w hw, ?_⟩
    rw [findAccessWindows_eq] at hw
    obtain ⟨r, hr, rfl⟩ := List.mem_map.mp hw
    obtain ⟨x, xs, rfl⟩ := List.exists_cons_of_ne_nil (runs_ne_nil l _ hr)
    rw [mkWindow_cons]
    intro e he
    have hlow := runs_all_low l _ hr e he
    rw [isLow, decide_eq_true_eq] at hlow
    exact hlow
  · intro w hw
    rw [findAccessWindows_eq] at hw
    obtain ⟨r, hr, rfl⟩ := List.mem_map.mp hw
    obtain ⟨x, xs, rfl⟩ := List.exists_cons_of_ne_nil (runs_ne_nil l _ hr)
    obtain ⟨i, hocc, hleft, hright⟩ := runs_position l _ hr
    rw [mkWindow_cons]
    refine ⟨i, ?_, ?_, ?_, ?_⟩
    · have h0 := hocc 0 (by simp)
      rw [Nat.add_zero] at h0
      rw [show (winOf x xs).entries = x :: xs from rfl]
      simpa using h0.symm
    · rw [show (winOf x xs).entries = x :: xs from rfl]
      rw [List.getLast?_eq_getElem?]
      have hlen : (x :: xs).length - 1 < (x :: xs).length := by simp
      have h1 := hocc ((x :: xs).length - 1) hlen
      simp only [List.length_cons] at h1 ⊢
      rw [show i + (xs.length + 1) - 1 = i + (xs.length + 1 - 1) by omega]
      exact h1.symm
    · intro p hi0 hp
      rcases hleft with h0 | ⟨p', hp1', hlow⟩
      · exact absurd h0 hi0
      · rw [hp] at hp1'
        obtain rfl : p = p' := by simpa using hp1'
        rw [isLow, decide_eq_false_iff_not] at hlow
        exact lt_of_not_le hlow
    · intro q hq
      rw [show (winOf x xs).entries = x :: xs from rfl] at hq
      have hlow := hright q hq
      rw [isLow, decide_eq_false_iff_not] at hlow
      exact lt_of_not_le hlow

/-- Witness for C7 at the spec scenario series (whose times strictly
increase). -/
theorem findAccessWindows_window_invariants_witness :
    (findAccessWindows exampleSeries).Pairwise
      (fun w1 w2 => w1.endTime < w2.start) ∧
    (∀ w ∈ findAccessWindows exampleSeries, w.start ≤ w.endTime ∧
      (∀ e ∈ w.entries, e.prediction ≤ accessThreshold)) ∧
    (∀ w ∈ findAccessWindows exampleSeries, ∃ i : ℕ,
      w.entries.head? = exampleSeries[i]? ∧
      w.entries.getLast? = exampleSeries[i + w.entries.length - 1]? ∧
      (∀ p, i ≠ 0 → exampleSeries[i - 1]? = some p →
        accessThreshold < p.prediction) ∧
      (∀ q, exampleSeries[i + w.entries.length]? = some q →
        accessThreshold < q.prediction)) :=
  findAccessWindows_window_invariants exampleSeries (by decide)

/-- The discriminator of a countdown result: `'window-closing'` or
`'window-opening'`. -/
inductive CountdownType where
  | windowClosing
  | windowOpening
deriving DecidableEq

/-- A countdown result of `getCountdown`: `{ type, ms, window }`. -/
structure Countdown where
  type : CountdownType
  ms : Int
  window : AccessWindow
deriving DecidableEq

/-- `getCountdown(tideData, currentTime)` from `tides.js`: recompute the access
windows; the first window containing `now` (inclusive both ends) yields
`window-closing` with `window.end - now`; otherwise the first window with
`start > now` yields `window-opening` with `window.start - now`; otherwise
`null`.  The two sequential early-return `for` loops are `List.find?`. -/
def getCountdown (tideData : List TideEntry) (now : Int) : Option Countdown :=
  match (findAccessWindows tideData).find?
      (fun w => decide (w.start ≤ now) && decide (now ≤ w.endTime)) with
  | some w => some ⟨CountdownType.windowClosing, w.endTime - now, w⟩
  | none =>
    match (findAccessWindows tideData).find? (fun w => decide (now < w.start)) with
    | some w => some ⟨CountdownType.windowOpening, w.start - now, w⟩
    | none => none

theorem find?_closing {ws : List AccessWindow} {now : Int}
    (hord : ws.Pairwise (fun w1 w2 => w1.endTime < w2.start))
    {w : AccessWindow} (hw : w ∈ ws) (h1 : w.start ≤ now) (h2 : now ≤ w.endTime) :
    ws.find? (fun v => decide (v.start ≤ now) && decide (now ≤ v.endTime)) =
      some w := by
  induction ws with
  | nil => cases hw
  | cons w0 rest ih =>
    rcases List.mem_cons.mp hw with rfl | hm
    · rw [List.find?_cons_of_pos _ (by simp [h1, h2])]
    · have hR := (List.pairwise_cons.mp hord).1 w hm
      have hneg : ¬ now ≤ w0.endTime := by omega
      rw [List.find?_cons_of_neg _ (by simp [hneg])]
      exact ih (List.pairwise_cons.mp hord).2 hm

theorem find?_opening {ws : List AccessWindow} {now : Int}
    (hord : ws.Pairwise (fun w1 w2 => w1.endTime < w2.start))
    (hse : ∀ v ∈ ws, v.start ≤ v.endTime)
    {w : AccessWindow} (hw : w ∈ ws) (h1 : now < w.start)
    (hmin : ∀ v ∈ ws, now < v.start → w.start ≤ v.start) :
    ws.find? (fun v => decide (now < v.start)) = some w := by
  induction ws with
  | nil => cases hw
  | cons w0 rest ih =>
    by_cases h0 : now < w0.start
    · have hww0 : w = w0 := by
        rcases List.mem_cons.mp hw with rfl | hm
        · rfl
        · exfalso
          have hR := (List.pairwise_cons.mp hord).1 w hm
          have hminw0 := hmin w0 (List.mem_cons_self _ _) h0
          have hse0 := hse w0 (List.mem_cons_self _ _)
          omega
      subst hww0
      rw [List.find?_cons_of_pos _ (by simp [h0])]
    · have hm : w ∈ rest := by
        rcases List.mem_cons.mp hw with rfl | hm
        · exact absurd h1 h0
        · exact hm
      rw [List.find?_cons_of_neg _ (by simp [h0])]
      exact ih (List.pairwise_cons.mp hord).2
        (fun v hv => hse v (List.mem_cons_of_mem _ hv)) hm
        (fun v hv => hmin v (List.mem_cons_of_mem _ hv))

/-- C2: with a time-sorted series, if `now` lies within `[start, end]` of a
detected window (inclusive both ends) then `getCountdown` returns
`window-closing` with `ms = end - now` for that window; otherwise, if some
window starts strictly after `now`, it returns `window-opening` with
`ms = start - now` for the earliest such window; otherwise (including the empty
series) it returns `null`. -/
theorem getCountdown_cases (l : List TideEntry) (now : Int)
    (hs : l.Pairwise (fun a b => a.time < b.time)) :
    (∀ w ∈ findAccessWindows l, w.start ≤ now → now ≤ w.endTime →
      getCountdown l now =
        some ⟨CountdownType.windowClosing, w.endTime - now, w⟩) ∧
    ((∀ w ∈ findAccessWindows l, ¬(w.start ≤ now ∧ now ≤ w.endTime)) →
      ∀ w ∈ findAccessWindows l, now < w.start →
        (∀ v ∈ findAccessWindows l, now < v.start → w.start ≤ v.start) →
        getCountdown l now =
          some ⟨CountdownType.windowOpening, w.start - now, w⟩) ∧
    ((∀ w ∈ findAccessWindows l, ¬(w.start ≤ now ∧ now ≤ w.endTime)) →
      (∀ w ∈ findAccessWindows l, ¬ now < w.start) →
      getCountdown l now = none) := by
  have hord := windows_sorted l hs
  have hse := windows_start_le_endTime l hs
  refine ⟨?_, ?_, ?_⟩
  · intro w hw h1 h2
    rw [getCountdown, find?_closing hord hw h1 h2]
  · intro hnone w hw h1 hmin
    have hf0 : (findAccessWindows l).find?
        (fun v => decide (v.start ≤ now) && decide (now ≤ v.endTime)) = none :=
      List.find?_eq_none.mpr (fun x hx => by simpa using hnone x hx)
    rw [getCountdown, hf0, find?_opening hord hse hw h1 hmin]
  · intro hnone hno
    have hf0 : (findAccessWindows l).find?
        (fun v => decide (v.start ≤ now) && decide (now ≤ v.endTime)) = none :=
      List.find?_eq_none.mpr (fun x hx => by simpa using hnone x hx)
    have hf1 : (findAccessWindows l).find?
        (fun v => decide (now < v.start)) = none :=
      List.find?_eq_none.mpr (fun x hx => by simpa using hno x hx)
    rw [getCountdown, hf0, hf1]

/-- Witness for C2 at the spec scenario: `now = 8:20` lies inside the single
window `[8:15, 8:45]`, so the countdown is `window-closing` with 25 minutes
remaining. -/
theorem getCountdown_cases_witness :
    getCountdown exampleSeries 30000000 =
      some ⟨CountdownType.windowClosing, 1500000, exampleWindow⟩ :=
  (getCountdown_cases exampleSeries 30000000 (by decide)).1 exampleWindow
    (by rw [findAccessWindows_example]; exact List.mem_singleton_self _)
    (by decide) (by decide)

/-- The `high` update of the `findHighLowTides` loop: replace only on a
strictly greater prediction (so the first maximum wins). -/
def highStep (acc e : TideEntry) : TideEntry :=
  if e.prediction > acc.prediction then e else acc

/-- The `low` update of the `findHighLowTides` loop: replace only on a
strictly smaller prediction (so the first minimum wins). -/
def lowStep (acc e : TideEntry) : TideEntry :=
  if e.prediction < acc.prediction then e else acc

/-- `findHighLowTides(tideData)` from `tides.js`: linear scan starting from the
first sample, with strict comparisons; empty input yields `{high: null,
low: null}`. -/
def findHighLowTides (tideData : List TideEntry) :
    Option TideEntry × Option TideEntry :=
  match tideData with
  | [] => (none, none)
  | first :: _ =>
    let p := tideData.foldl
      (fun acc e => (highStep acc.1 e, lowStep acc.2 e)) (first, first)
    (some p.1, some p.2)

theorem foldl_pair_split : ∀ (t : List TideEntry) (a b : TideEntry),
    t.foldl (fun acc e => (highStep acc.1 e, lowStep acc.2 e)) (a, b) =
      (t.foldl highStep a, t.foldl lowStep b) := by
  intro t
  induction t with
  | nil => intro a b; rfl
  | cons e t ih => intro a b; simp only [List.foldl_cons]; exact ih _ _

theorem foldl_highStep_spec : ∀ (t : List TideEntry) (c : TideEntry), ∃ c',
    t.foldl highStep c = c' ∧
    (∀ e ∈ t, e.prediction ≤ c'.prediction) ∧
    c.prediction ≤ c'.prediction ∧
    (c' = c ∨ ∃ r1 r2, t = r1 ++ c' :: r2 ∧ c.prediction < c'.prediction ∧
      ∀ x ∈ r1, x.prediction < c'.prediction) := by
  intro t
  induction t with
  | nil => intro c; exact ⟨c, rfl, by simp, le_refl _, Or.inl rfl⟩
  | cons e t ih =>
    intro c
    by_cases hce : e.prediction > c.prediction
    · obtain ⟨c', hfold, hall, hc, hcases⟩ := ih e
      refine ⟨c', ?_, ?_, le_trans (le_of_lt hce) hc, ?_⟩
      · rw [List.foldl_cons]
        simp only [highStep, if_pos hce]
        exact hfold
      · intro x hx
        rcases List.mem_cons.mp hx with rfl | hm
        · exact hc
        · exact hall x hm
      · rcases hcases with rfl | ⟨r1, r2, heq, hlt, hstrict⟩
        · exact Or.inr ⟨[], t, rfl, hce, by simp⟩
        · refine Or.inr ⟨e :: r1, r2, by rw [heq, List.cons_append],
            lt_trans hce hlt, ?_⟩
          intro x hx
          rcases List.mem_cons.mp hx with rfl | hm
          · exact hlt
          · exact hstrict x hm
    · obtain ⟨c', hfold, hall, hc, hcases⟩ := ih c
      refine ⟨c', ?_, ?_, hc, ?_⟩
      · rw [List.foldl_cons]
        simp only [highStep, if_neg hce]
        exact hfold
      · intro x hx
        rcases List.mem_cons.mp hx with rfl | hm
        · exact le_trans (not_lt.mp hce) hc
        · exact hall x hm
      · rcases hcases with rfl | ⟨r1, r2, heq, hlt, hstrict⟩
        · exact Or.inl rfl
        · refine Or.inr ⟨e :: r1, r2, by rw [heq, List.cons_append], hlt, ?_⟩
          intro x hx
          rcases List.mem_cons.mp hx with rfl | hm
          · exact lt_of_le_of_lt (not_lt.mp hce) hlt
          · exact hstrict x hm

theorem foldl_lowStep_spec : ∀ (t : List TideEntry) (c : TideEntry), ∃ c',
    t.foldl lowStep c = c' ∧
    (∀ e ∈ t, c'.prediction ≤ e.prediction) ∧
    c'.prediction ≤ c.prediction ∧
    (c' = c ∨ ∃ r1 r2, t = r1 ++ c' :: r2 ∧ c'.prediction < c.prediction ∧
      ∀ x ∈ r1, c'.prediction < x.prediction) := by
  intro t
  induction t with
  | nil => intro c; exact ⟨c, rfl, by simp, le_refl _, Or.inl rfl⟩
  | cons e t ih =>
    intro c
    by_cases hce : e.prediction < c.prediction
    · obtain ⟨c', hfold, hall, hc, hcases⟩ := ih e
      refine ⟨c', ?_, ?_, le_trans hc (le_of_lt hce), ?_⟩
      · rw [List.foldl_cons]
        simp only [lowStep, if_pos hce]
        exact hfold
      · intro x hx
        rcases List.mem_cons.mp hx with rfl | hm
        · exact hc
        · exact hall x hm
      · rcases hcases with rfl | ⟨r1, r2, heq, hlt, hstrict⟩
        · exact Or.inr ⟨[], t, rfl, hce, by simp⟩
        · refine Or.inr ⟨e :: r1, r2, by rw [heq, List.cons_append],
            lt_trans hlt hce, ?_⟩
          intro x hx
          rcases List.mem_cons.mp hx with rfl | hm
          · exact hlt
          · exact hstrict x hm
    · obtain ⟨c', hfold, hall, hc, hcases⟩ := ih c
      refine ⟨c', ?_, ?_, hc, ?_⟩
      · rw [List.foldl_cons]
        simp only [lowStep, if_neg hce]
        exact hfold
      · intro x hx
        rcases List.mem_cons.mp hx with rfl | hm
        · exact le_trans hc (not_lt.mp hce)
        · exact hall x hm
      · rcases hcases with rfl | ⟨r1, r2, heq, hlt, hstrict⟩
        · exact Or.inl rfl
        · refine Or.inr ⟨e :: r1, r2, by rw [heq, List.cons_append], hlt, ?_⟩
          intro x hx
          rcases List.mem_cons.mp hx with rfl | hm
          · exact lt_of_lt_of_le hlt (not_lt.mp hce)
          · exact hstrict x hm

/-- C8: for a non-empty series `findHighLowTides` returns as `high` the first
sample attaining the maximum prediction and as `low` the first sample
attaining the minimum prediction (strict comparisons resolve ties to the
first occurrence); the empty series yields `{high: null, low: null}`. -/
theorem findHighLowTides_first_extrema (l : List TideEntry) :
    (l = [] → findHighLowTides l = (none, none)) ∧
    (l ≠ [] → ∃ hi lo,
      findHighLowTides l = (some hi, some lo) ∧
      (∀ e ∈ l, e.prediction ≤ hi.prediction) ∧
      (∃ l1 l2, l = l1 ++ hi :: l2 ∧
        ∀ x ∈ l1, x.prediction < hi.prediction) ∧
      (∀ e ∈ l, lo.prediction ≤ e.prediction) ∧
      (∃ l1 l2, l = l1 ++ lo :: l2 ∧
        ∀ x ∈ l1, lo.prediction < x.prediction)) := by
  constructor
  · intro h
    subst h
    rfl
  · intro hne
    obtain ⟨first, t, rfl⟩ := List.exists_cons_of_ne_nil hne
    obtain ⟨hi, hfoldh, hallh, hfirsth, hcasesh⟩ :=
      foldl_highStep_spec (first :: t) first
    obtain ⟨lo, hfoldl, halll, hfirstl, hcasesl⟩ :=
      foldl_lowStep_spec (first :: t) first
    refine ⟨hi, lo, ?_, hallh, ?_, halll, ?_⟩
    · show (some ((first :: t).foldl
        (fun acc e => (highStep acc.1 e, lowStep acc.2 e)) (first, first)).1,
        some ((first :: t).foldl
        (fun acc e => (highStep acc.1 e, lowStep acc.2 e)) (first, first)).2) =
        (some hi, some lo)
      rw [foldl_pair_split, hfoldh, hfoldl]
    · rcases hcasesh with rfl | ⟨r1, r2, heq, _, hstrict⟩
      · exact ⟨[], t, rfl, by simp⟩
      · exact ⟨r1, r2, heq, hstrict⟩
    · rcases hcasesl with rfl | ⟨r1, r2, heq, _, hstrict⟩
      · exact ⟨[], t, rfl, by simp⟩
      · exact ⟨r1, r2, heq, hstrict⟩

/-- Witness for C8 at the spec scenario series. -/
theorem findHighLowTides_first_extrema_witness :
    ∃ hi lo,
      findHighLowTides exampleSeries = (some hi, some lo) ∧
      (∀ e ∈ exampleSeries, e.prediction ≤ hi.prediction) ∧
      (∃ l1 l2, exampleSeries = l1 ++ hi :: l2 ∧
        ∀ x ∈ l1, x.prediction < hi.prediction) ∧
      (∀ e ∈ exampleSeries, lo.prediction ≤ e.prediction) ∧
      (∃ l1 l2, exampleSeries = l1 ++ lo :: l2 ∧
        ∀ x ∈ l1, lo.prediction < x.prediction) :=
  (findHighLowTides_first_extrema exampleSeries).2 (by decide)

/-- The trend classification of `getTideTrend`. -/
inductive Trend where
  | rising
  | falling
  | unknown
deriving DecidableEq

/-- `getTideTrend(tideData, currentTime)` from `tides.js`: scan consecutive
pairs `(tideData[i], tideData[i+1])` for the first bracket with
`tideData[i].time <= now < tideData[i+1].time`; if none, `'unknown'`;
otherwise `'rising'` when the later prediction is strictly greater, else
`'falling'`.  The indexed `for` loop with early `break` is `List.find?` over
the consecutive-pair list. -/
def getTideTrend (tideData : List TideEntry) (now : Int) : Trend :=
  match (tideData.zip tideData.tail).find?
      (fun p => decide (p.1.time ≤ now) && decide (now < p.2.time)) with
  | none => Trend.unknown
  | some (before, after) =>
    if after.prediction > before.prediction then Trend.rising
    else Trend.falling
theorem time_le_getLast : ∀ (l : List TideEntry),
    l.Pairwise (fun a b => a.time < b.time) →
    ∀ g, l.getLast? = some g → ∀ b ∈ l, b.time ≤ g.time := by
  intro l
  induction l with
  | nil => intro _ g hg; simp at hg
  | cons x t ih =>
    intro hp g hg b hb
    cases t with
    | nil =>
      have hg1 : g = x := by simpa using hg.symm
      have hb1 : b = x := by simpa using hb
      rw [hg1, hb1]
    | cons y t' =>
      rw [List.getLast?_cons_cons] at hg
      rcases List.mem_cons.mp hb with rfl | hm
      · have hgmem : g ∈ y :: t' := by
          rw [List.getLast?_eq_getElem?] at hg
          exact List.getElem?_mem hg
        exact le_of_lt ((List.pairwise_cons.mp hp).1 g hgmem)
      · exact ih (List.pairwise_cons.mp hp).2 g hg b hm

theorem find?_bracket : ∀ (l : List TideEntry) (now : Int),
    l.Pairwise (fun a b => a.time < b.time) →
    ∀ (i : ℕ) (a b : TideEntry), l[i]? = some a → l[i + 1]? = some b →
      a.time ≤ now → now < b.time →
      (l.zip l.tail).find?
          (fun p => decide (p.1.time ≤ now) && decide (now < p.2.time)) =
        some (a, b) := by
  intro l
  induction l with
  | nil => intro now _ i a b ha; simp at ha
  | cons x t ih =>
    intro now hp i a b ha hb hle hgt
    cases t with
    | nil =>
      rw [List.getElem?_eq_none (by simp)] at hb
      cases hb
    | cons y t' =>
      cases i with
      | zero =>
        have hax : x = a := by simpa using ha
        have hby : y = b := by simpa using hb
        subst hax
        subst hby
        rw [show (x :: y :: t').zip (x :: y :: t').tail =
          (x, y) :: ((y :: t').zip (y :: t').tail) from rfl]
        rw [List.find?_cons_of_pos _ (by simp [hle, hgt])]
      | succ i' =>
        have ha' : (y :: t')[i']? = some a := by simpa using ha
        have hb' : (y :: t')[i' + 1]? = some b := by simpa using hb
        have hya : y.time ≤ a.time := by
          rcases List.mem_cons.mp (List.getElem?_mem ha') with rfl | hm
          · exact le_refl _
          · exact le_of_lt
              ((List.pairwise_cons.mp (List.pairwise_cons.mp hp).2).1 a hm)
        have hneg : ¬ now < y.time := by omega
        rw [show (x :: y :: t').zip (x :: y :: t').tail =
          (x, y) :: ((y :: t').zip (y :: t').tail) from rfl]
        rw [List.find?_cons_of_neg _ (by simp [hneg])]
        exact ih now (List.pairwise_cons.mp hp).2 i' a b ha' hb' hle hgt

/-- C5: with a time-sorted series, if consecutive samples bracket `now`
(`sample[i].time ≤ now < sample[i+1].time`) then `getTideTrend` reports
`rising` exactly when the later prediction is strictly greater (equal
predictions give `falling`); if `now` precedes the first sample's time or is
at or after the last sample's time, it reports `unknown`. -/
theorem getTideTrend_cases (l : List TideEntry) (now : Int)
    (hs : l.Pairwise (fun a b => a.time < b.time)) :
    (∀ (i : ℕ) (a b : TideEntry), l[i]? = some a → l[i + 1]? = some b →
      a.time ≤ now → now < b.time →
      getTideTrend l now =
        if b.prediction > a.prediction then Trend.rising else Trend.falling) ∧
    (∀ f, l.head? = some f → now < f.time →
      getTideTrend l now = Trend.unknown) ∧
    (∀ g, l.getLast? = some g → g.time ≤ now →
      getTideTrend l now = Trend.unknown) := by
  refine ⟨?_, ?_, ?_⟩
  · intro i a b ha hb hle hgt
    rw [getTideTrend, find?_bracket l now hs i a b ha hb hle hgt]
  · intro f hf hlt
    cases l with
    | nil => simp at hf
    | cons x t =>
      have hfx : x = f := by simpa using hf
      subst hfx
      have hnone : ((x :: t).zip (x :: t).tail).find?
          (fun p => decide (p.1.time ≤ now) && decide (now < p.2.time)) =
            none := by
        refine List.find?_eq_none.mpr ?_
        intro p hpmem
        have hp1 : p.1 ∈ x :: t := by
          obtain ⟨a, b, rfl⟩ : ∃ a b, p = (a, b) := ⟨p.1, p.2, rfl⟩
          exact (List.of_mem_zip hpmem).1
        have hxa : x.time ≤ p.1.time := by
          rcases List.mem_cons.mp hp1 with hm | hm
          · rw [hm]
          · exact le_of_lt ((List.pairwise_cons.mp hs).1 _ hm)
        simp only [Bool.and_eq_true, decide_eq_true_eq, not_and]
        intro hle
        omega
      rw [getTideTrend, hnone]
  · intro g hg hge
    have hnone : (l.zip l.tail).find?
        (fun p => decide (p.1.time ≤ now) && decide (now < p.2.time)) =
          none := by
      refine List.find?_eq_none.mpr ?_
      intro p hpmem
      have hp2 : p.2 ∈ l := by
        obtain ⟨a, b, rfl⟩ : ∃ a b, p = (a, b) := ⟨p.1, p.2, rfl⟩
        exact List.mem_of_mem_tail (List.of_mem_zip hpmem).2
      have hb : p.2.time ≤ g.time := time_le_getLast l hs g hg p.2 hp2
      simp only [Bool.and_eq_true, decide_eq_true_eq, not_and]
      intro hle
      omega
    rw [getTideTrend, hnone]

/-- Witness for C5: on the spec scenario `[(8:00,1.0),(8:15,1.2)]` with
`now = 8:05` the bracket is found and the trend is decided by the strict
comparison of the two predictions. -/
theorem getTideTrend_cases_witness :
    getTideTrend [⟨28800000, 1, none⟩, ⟨29700000, 1.2, none⟩] 29100000 =
      if (1.2 : ℚ) > 1 then Trend.rising else Trend.falling :=
  (getTideTrend_cases [⟨28800000, 1, none⟩, ⟨29700000, 1.2, none⟩] 29100000
      (by decide)).1 0 ⟨28800000, 1, none⟩ ⟨29700000, 1.2, none⟩
    rfl rfl (by decide) (by decide)

/-- The status discriminator of `getCurrentAccessStatus`. -/
inductive Status where
  | accessible
  | notAccessible
  | unknown
deriving DecidableEq

/-- The result record of `getCurrentAccessStatus`:
`{ accessible, status, tide, entry }` (`entry` is absent in the unknown
case). -/
structure AccessStatus where
  accessible : Bool
  status : Status
  tide : Option ℚ
  entry : Option TideEntry
deriving DecidableEq

/-- One step of the closest-sample scan of `getCurrentAccessStatus`: the
accumulator is the `closest` variable (`none` before the first entry, whose
distance always beats the initial `Infinity`); replacement needs a strictly
smaller distance, so the first minimum wins. -/
def closestStep (now : Int) (acc : Option TideEntry) (e : TideEntry) :
    Option TideEntry :=
  match acc with
  | none => some e
  | some c => if |e.time - now| < |c.time - now| then some e else some c

/-- The effective tide of `getCurrentAccessStatus`:
`closest.observation || closest.prediction`.  JS `||` falls through on any
falsy value, so an observation of exactly 0 is skipped in favor of the
prediction (NaN, the other falsy number, has no `ℚ` counterpart and is not
modelled). -/
def effectiveTide (e : TideEntry) : ℚ :=
  match e.observation with
  | some v => if v = 0 then e.prediction else v
  | none => e.prediction

/-- `getCurrentAccessStatus(tideData, currentTime)` from `tides.js`. -/
def getCurrentAccessStatus (tideData : List TideEntry) (now : Int) :
    AccessStatus :=
  match tideData.foldl (closestStep now) none with
  | none => ⟨false, Status.unknown, none, none⟩
  | some c =>
    if effectiveTide c ≤ accessThreshold then
      ⟨true, Status.accessible, some (effectiveTide c), some c⟩
    else
      ⟨false, Status.notAccessible, some (effectiveTide c), some c⟩

theorem foldl_closest_spec (now : Int) :
    ∀ (t : List TideEntry) (c : TideEntry), ∃ c',
    t.foldl (closestStep now) (some c) = some c' ∧
    |c'.time - now| ≤ |c.time - now| ∧
    (∀ e ∈ t, |c'.time - now| ≤ |e.time - now|) ∧
    (c' = c ∨ ∃ r1 r2, t = r1 ++ c' :: r2 ∧
      |c'.time - now| < |c.time - now| ∧
      ∀ x ∈ r1, |c'.time - now| < |x.time - now|) := by
  intro t
  induction t with
  | nil => intro c; exact ⟨c, rfl, le_refl _, by simp, Or.inl rfl⟩
  | cons e t ih =>
    intro c
    by_cases hce : |e.time - now| < |c.time - now|
    · obtain ⟨c', hfold, hc, hall, hcases⟩ := ih e
      refine ⟨c', ?_, le_trans hc (le_of_lt hce), ?_, ?_⟩
      · rw [List.foldl_cons]
        simp only [closestStep, if_pos hce]
        exact hfold
      · intro x hx
        rcases List.mem_cons.mp hx with rfl | hm
        · exact hc
        · exact hall x hm
      · rcases hcases with rfl | ⟨r1, r2, heq, hlt, hstrict⟩
        · exact Or.inr ⟨[], t, rfl, hce, by simp⟩
        · refine Or.inr ⟨e :: r1, r2, by rw [heq, List.cons_append],
            lt_trans hlt hce, ?_⟩
          intro x hx
          rcases List.mem_cons.mp hx with rfl | hm
          · exact hlt
          · exact hstrict x hm
    · obtain ⟨c', hfold, hc, hall, hcases⟩ := ih c
      refine ⟨c', ?_, hc, ?_, ?_⟩
      · rw [List.foldl_cons]
        simp only [closestStep, if_neg hce]
        exact hfold
      · intro x hx
        rcases List.mem_cons.mp hx with rfl | hm
        · exact le_trans hc (not_lt.mp hce)
        · exact hall x hm
      · rcases hcases with rfl | ⟨r1, r2, heq, hlt, hstrict⟩
        · exact Or.inl rfl
        · refine Or.inr ⟨e :: r1, r2, by rw [heq, List.cons_append], hlt, ?_⟩
          intro x hx
          rcases List.mem_cons.mp hx with rfl | hm
          · exact lt_of_lt_of_le hlt (not_lt.mp hce)
          · exact hstrict x hm

/-- Characterization of `getCurrentAccessStatus` on a non-empty series: it
classifies the first sample whose time is nearest to `now`, using the
effective tide. -/
theorem currentStatus_spec (l : List TideEntry) (now : Int) (hne : l ≠ []) :
    ∃ c,
      getCurrentAccessStatus l now =
        (if effectiveTide c ≤ accessThreshold then
          ⟨true, Status.accessible, some (effectiveTide c), some c⟩
        else
          ⟨false, Status.notAccessible, some (effectiveTide c), some c⟩) ∧
      (∀ e ∈ l, |c.time - now| ≤ |e.time - now|) ∧
      (∃ l1 l2, l = l1 ++ c :: l2 ∧
        ∀ x ∈ l1, |c.time - now| < |x.time - now|) := by
  obtain ⟨first, t, rfl⟩ := List.exists_cons_of_ne_nil hne
  obtain ⟨c', hfold, hc, hall, hcases⟩ := foldl_closest_spec now t first
  refine ⟨c', ?_, ?_, ?_⟩
  · show (match (first :: t).foldl (closestStep now) none with
      | none => (⟨false, Status.unknown, none, none⟩ : AccessStatus)
      | some c =>
        if effectiveTide c ≤ accessThreshold then
          ⟨true, Status.accessible, some (effectiveTide c), some c⟩
        else
          ⟨false, Status.notAccessible, some (effectiveTide c), some c⟩) = _
    rw [show (first :: t).foldl (closestStep now) none =
      t.foldl (closestStep now) (some first) from rfl, hfold]
  · intro e he
    rcases List.mem_cons.mp he with rfl | hm
    · exact hc
    · exact hall e hm
  · rcases hcases with rfl | ⟨r1, r2, heq, hlt, hstrict⟩
    · exact ⟨[], t, rfl, by simp⟩
    · refine ⟨first :: r1, r2, by rw [heq, List.cons_append], ?_⟩
      intro x hx
      rcases List.mem_cons.mp hx with rfl | hm
      · exact hlt
      · exact hstrict x hm

/-- A sample whose observation is exactly 0 m while its prediction is 2 m. -/
def zeroObsEntry : TideEntry := ⟨0, 2, some 0⟩

/-- Counterexample to C4 as stated: the nearest sample carries an observation
(`some 0`), yet `getCurrentAccessStatus` reports the prediction 2 m as the
tide and classifies the island as not accessible — the claim's reading
(observation used whenever present) would give tide 0 m and `accessible =
true`.  JS `closest.observation || closest.prediction` falls through on the
falsy observation value 0. -/
theorem getCurrentAccessStatus_zero_observation :
    zeroObsEntry.observation = some 0 ∧
    getCurrentAccessStatus [zeroObsEntry] 0 =
      ⟨false, Status.notAccessible, some 2, some zeroObsEntry⟩ := by
  refine ⟨rfl, ?_⟩
  norm_num [getCurrentAccessStatus, closestStep, effectiveTide, zeroObsEntry,
    accessThreshold, List.foldl_cons, List.foldl_nil]

/-- C4 (amended): `getCurrentAccessStatus` selects the first sample whose time
has the smallest absolute difference from `now`; the tide it reports is that
sample's observation when the observation is present *and nonzero*, falling
back to its prediction otherwise (a zero observation is skipped by JS
truthiness); `accessible` is true exactly when that tide is at or below 1.1.
The empty series yields `{accessible: false, status: 'unknown', tide:
null}`. -/
theorem getCurrentAccessStatus_nearest (l : List TideEntry) (now : Int) :
    (l = [] → getCurrentAccessStatus l now =
      ⟨false, Status.unknown, none, none⟩) ∧
    (l ≠ [] → ∃ c,
      getCurrentAccessStatus l now =
        (if effectiveTide c ≤ accessThreshold then
          ⟨true, Status.accessible, some (effectiveTide c), some c⟩
        else
          ⟨false, Status.notAccessible, some (effectiveTide c), some c⟩) ∧
      (∀ e ∈ l, |c.time - now| ≤ |e.time - now|) ∧
      (∃ l1 l2, l = l1 ++ c :: l2 ∧
        ∀ x ∈ l1, |c.time - now| < |x.time - now|)) := by
  constructor
  · intro h
    subst h
    rfl
  · intro hne
    exact currentStatus_spec l now hne

/-- Witness for C4 at the spec scenario series with `now = 8:30`. -/
theorem getCurrentAccessStatus_nearest_witness :
    ∃ c,
      getCurrentAccessStatus exampleSeries 30600000 =
        (if effectiveTide c ≤ accessThreshold then
          ⟨true, Status.accessible, some (effectiveTide c), some c⟩
        else
          ⟨false, Status.notAccessible, some (effectiveTide c), some c⟩) ∧
      (∀ e ∈ exampleSeries, |c.time - 30600000| ≤ |e.time - 30600000|) ∧
      (∃ l1 l2, exampleSeries = l1 ++ c :: l2 ∧
        ∀ x ∈ l1, |c.time - 30600000| < |x.time - 30600000|) :=
  (getCurrentAccessStatus_nearest exampleSeries 30600000).2 (by decide)

/-- C10: `getCurrentAccessStatus` reports `unknown` with a null tide exactly
on the empty series; on any non-empty series (for any `now`, however far
outside the sampled range) it reports `accessible` or `not-accessible` with a
non-null tide. -/
theorem getCurrentAccessStatus_total (l : List TideEntry) (now : Int) :
    ((getCurrentAccessStatus l now).status = Status.unknown ↔ l = []) ∧
    ((getCurrentAccessStatus l now).tide = none ↔ l = []) ∧
    (l ≠ [] → (getCurrentAccessStatus l now).status = Status.accessible ∨
      (getCurrentAccessStatus l now).status = Status.notAccessible) := by
  cases hl : l with
  | nil =>
    refine ⟨by simp [getCurrentAccessStatus], by simp [getCurrentAccessStatus], ?_⟩
    intro h
    exact absurd rfl h
  | cons first t =>
    obtain ⟨c, hres, _, _⟩ :=
      currentStatus_spec (first :: t) now (List.cons_ne_nil _ _)
    by_cases hc : effectiveTide c ≤ accessThreshold
    · rw [hres, if_pos hc]
      exact ⟨by simp, by simp, fun _ => Or.inl rfl⟩
    · rw [hres, if_neg hc]
      exact ⟨by simp, by simp, fun _ => Or.inr rfl⟩

/-- Witness for C10: a one-sample series with `now` far outside the sampled
range still classifies as accessible or not accessible. -/
theorem getCurrentAccessStatus_total_witness :
    (getCurrentAccessStatus [⟨0, 1, none⟩] 999999999999).status =
        Status.accessible ∨
      (getCurrentAccessStatus [⟨0, 1, none⟩] 999999999999).status =
        Status.notAccessible :=
  (getCurrentAccessStatus_total [⟨0, 1, none⟩] 999999999999).2.2 (by decide)

/-- `filterQuarterHour(data)` from `tides.js`: keep only samples whose local
minute-of-hour is 0, 15, 30 or 45 (`Date.getMinutes` with the modelled zero
timezone offset). -/
def filterQuarterHour (data : List RawSample) : List RawSample :=
  data.filter fun entry =>
    let m := (entry.eventDate.fdiv 60000).emod 60
    decide (m = 0 ∨ m = 15 ∨ m = 30 ∨ m = 45)

/-- The bucket key of `mergeTideData`:
`Math.floor(date.getTime() / (15*60*1000)) * (15*60*1000)`. -/
def bucket (ms : Int) : Int := ms.fdiv 900000 * 900000

/-- The observation `Map` of `mergeTideData`, built by `forEach`/`set` (later
writes to the same bucket win), modelled as a function updated left to
right. -/
def obsMap (observations : List RawSample) : Int → Option ℚ :=
  observations.foldl
    (fun m o => Function.update m (bucket o.eventDate) (some o.value))
    (fun _ => none)

/-- `mergeTideData(predictions, observations)` from `tides.js`: filter both
inputs to the quarter-hour grid, key the observations by bucket, and emit one
row per filtered prediction.  `obsMap.get(timestamp) || null` maps a missing
bucket — or a 0-valued observation, which is falsy — to `null`. -/
def mergeTideData (predictions observations : List RawSample) :
    List TideEntry :=
  let filteredPredictions := filterQuarterHour predictions
  let filteredObservations := filterQuarterHour observations
  let m := obsMap filteredObservations
  filteredPredictions.map fun pred =>
    { time := pred.eventDate
      prediction := pred.value
      observation :=
        match m (bucket pred.eventDate) with
        | some v => if v = 0 then none else some v
        | none => none }

/-- Spec-side lookup for one prediction row: the value of the last input
observation (on the quarter-hour grid) whose bucket equals the prediction's
bucket, absent when there is none. -/
def lastMatchingObs (observations : List RawSample) (pred : RawSample) :
    Option ℚ :=
  (((filterQuarterHour observations).filter
      (fun ob => decide (bucket ob.eventDate = bucket pred.eventDate))).getLast?).map
    (fun ob => ob.value)

/-- The merge result described by the spec sentence of C3: one row per
filtered prediction, in order, carrying the last matching observation
verbatim. -/
def specMergeTideData (predictions observations : List RawSample) :
    List TideEntry :=
  (filterQuarterHour predictions).map fun pred =>
    { time := pred.eventDate
      prediction := pred.value
      observation := lastMatchingObs observations pred }

/-- JS truthiness applied to an optional observation value:
`v || null` erases a 0-valued observation. -/
def truthyObs (v? : Option ℚ) : Option ℚ :=
  match v? with
  | some v => if v = 0 then none else some v
  | none => none

theorem obsMap_spec (obs : List RawSample) (k : Int) :
    obsMap obs k =
      ((obs.filter (fun ob => decide (bucket ob.eventDate = k))).getLast?).map
        (fun ob => ob.value) := by
  induction obs using List.reverseRecOn with
  | nil => rfl
  | append_singleton os o ih =>
    simp only [obsMap, List.foldl_append, List.foldl_cons, List.foldl_nil]
    rw [Function.update_apply]
    by_cases hk : k = bucket o.eventDate
    · rw [if_pos hk, List.filter_append]
      have hfo : List.filter
          (fun ob => decide (bucket ob.eventDate = k)) [o] = [o] := by
        simp [List.filter, hk.symm]
      rw [hfo, List.getLast?_concat]
      rfl
    · rw [if_neg hk, List.filter_append]
      have hfo : List.filter
          (fun ob => decide (bucket ob.eventDate = k)) [o] = [] := by
        have hne : bucket o.eventDate ≠ k := fun h => hk h.symm
        simp [List.filter_cons, hne]
      rw [hfo, List.append_nil]
      exact ih

/-- C3 (amended): `mergeTideData` returns one row per quarter-hour prediction
in input order; each row's observation is the value of the last matching
input observation when that value is nonzero, and is absent when no
observation matches the bucket *or the matching value is exactly 0* (JS
truthiness in `obsMap.get(timestamp) || null`); observations with no matching
prediction bucket are dropped. -/
theorem mergeTideData_rows (predictions observations : List RawSample) :
    mergeTideData predictions observations =
      (filterQuarterHour predictions).map fun pred =>
        { time := pred.eventDate
          prediction := pred.value
          observation := truthyObs (lastMatchingObs observations pred) } := by
  simp only [mergeTideData]
  refine List.map_congr_left ?_
  intro pred _
  have h := obsMap_spec (filterQuarterHour observations) (bucket pred.eventDate)
  rw [h]
  rfl

/-- Counterexample to C3 as stated: a prediction and an observation share the
bucket at epoch 0, the observation's value is 0 m, and `mergeTideData` reports
the row's observation as absent although a matching observation exists. -/
theorem mergeTideData_zero_observation :
    mergeTideData [⟨0, 1⟩] [⟨0, 0⟩] ≠ specMergeTideData [⟨0, 1⟩] [⟨0, 0⟩] ∧
    mergeTideData [⟨0, 1⟩] [⟨0, 0⟩] = [⟨0, 1, none⟩] ∧
    specMergeTideData [⟨0, 1⟩] [⟨0, 0⟩] = [⟨0, 1, some 0⟩] := by
  have h1 : mergeTideData [⟨0, 1⟩] [⟨0, 0⟩] = [⟨0, 1, none⟩] := by
    norm_num [mergeTideData, filterQuarterHour, obsMap, bucket,
      Function.update_apply, List.filter]
  have h2 : specMergeTideData [⟨0, 1⟩] [⟨0, 0⟩] = [⟨0, 1, some 0⟩] := by
    norm_num [specMergeTideData, filterQuarterHour, bucket, lastMatchingObs,
      List.filter]
  refine ⟨?_, h1, h2⟩
  rw [h1, h2]
  simp

/-- The numeric content of `formatHeight(meters, 'meters')`, i.e. the value
displayed by `${meters.toFixed(2)}m` (a string like `"1.10m"`, modelled by the
rational it denotes — `parseFloat` reads exactly this decimal back).
`toFixed(2)` rounds to the nearest hundredth, ties toward the larger value,
i.e. `⌊100·x + 1/2⌋ / 100`. -/
def formatHeightMeters (x : ℚ) : ℚ := (⌊x * 100 + 1 / 2⌋ : ℚ) / 100

/-- `parseHeight(value, 'meters')` from `tides.js`: `parseFloat(value) / 100`
— the displayed number is treated as centimeters. -/
def parseHeightMeters (v : ℚ) : ℚ := v / 100

/-- Counterexample to C6 as stated: at `x = 1` the displayed string is
`"1.00m"`, and `parseHeight` turns it into `0.01`, an error of `0.99` — far
beyond the half-unit display tolerance `1/200`. -/
theorem parseHeight_formatHeight_meters_gap :
    |parseHeightMeters (formatHeightMeters 1) - 1| = 99 / 100 ∧
    ¬ |parseHeightMeters (formatHeightMeters 1) - 1| ≤ 1 / 200 := by
  have h : formatHeightMeters 1 = 1 := by
    rw [formatHeightMeters]
    rw [show ((1 : ℚ) * 100 + 1 / 2) = 201 / 2 by norm_num]
    rw [show ⌊(201 / 2 : ℚ)⌋ = 100 by
      rw [Int.floor_eq_iff]
      norm_num]
    norm_num
  have habs : |parseHeightMeters (formatHeightMeters 1) - 1| = 99 / 100 := by
    rw [h, parseHeightMeters]
    rw [show ((1 : ℚ) / 100 - 1) = -(99 / 100) by norm_num, abs_neg,
      abs_of_nonneg (by norm_num : (0 : ℚ) ≤ 99 / 100)]
  refine ⟨habs, ?_⟩
  rw [habs]
  norm_num

/-- C6 (amended): for meters the round trip recovers `x / 100`, not `x`: the
display rounds to two decimals (error at most `1/200`), and `parseHeight`
reinterprets the displayed value as centimeters, dividing by 100, so
`parseHeight(formatHeight(x, 'meters'), 'meters')` is within `1/20000` of
`x / 100` for every `x`. -/
theorem parseHeight_formatHeight_meters (x : ℚ) :
    |parseHeightMeters (formatHeightMeters x) - x / 100| ≤ 1 / 20000 := by
  have hfl : (⌊x * 100 + 1 / 2⌋ : ℚ) ≤ x * 100 + 1 / 2 := Int.floor_le _
  have hfg : x * 100 + 1 / 2 < (⌊x * 100 + 1 / 2⌋ : ℚ) + 1 :=
    Int.lt_floor_add_one _
  have h1 : |formatHeightMeters x - x| ≤ 1 / 200 := by
    rw [formatHeightMeters, abs_le]
    constructor
    · linarith
    · linarith
  have h2 : parseHeightMeters (formatHeightMeters x) - x / 100 =
      (formatHeightMeters x - x) / 100 := by
    rw [parseHeightMeters]
    ring
  rw [h2, abs_div, show |(100 : ℚ)| = 100 from abs_of_nonneg (by norm_num)]
  linarith [h1]

/-- `setHours(0, 0, 0, 0)` applied to a `Date`: truncate a millisecond
timestamp to its local midnight (modelled timezone offset 0). -/
def startOfDay (ms : Int) : Int := ms.fdiv 86400000 * 86400000

/-- `fetchObservations(date)` from `api.js`, modelled synchronously over its
inputs: `nowMs` is the current instant (`new Date()` / `Date.now()`),
`dateMs` the requested date, `cached` the observation-cache entry for the
date's key (creation timestamp and data), and `net` an oracle for what a
successful network fetch would return.  The boolean output records whether a
network request was issued.  The future-date guard runs before any cache or
network access; the cache is valid for `15*60*1000` ms. -/
def fetchObservations (nowMs dateMs : Int)
    (cached : Option (Int × List RawSample)) (net : List RawSample) :
    List RawSample × Bool :=
  if startOfDay nowMs < startOfDay dateMs then ([], false)
  else
    match cached with
    | some c => if nowMs - c.1 < 900000 then (c.2, false) else (net, true)
    | none => (net, true)

/-- C9: when the requested date's local calendar day is strictly after
today's, `fetchObservations` returns the empty sequence without issuing any
network request, regardless of the cache state or the remote data. -/
theorem fetchObservations_future_short_circuit
    (nowMs dateMs : Int) (cached : Option (Int × List RawSample))
    (net : List RawSample)
    (h : startOfDay nowMs < startOfDay dateMs) :
    fetchObservations nowMs dateMs cached net = ([], false) := by
  rw [fetchObservations.eq_def, if_pos h]

/-- Witness for C9: today at epoch 0, requesting the next calendar day, with a
populated cache and a non-empty remote — the result is empty with no
request. -/
theorem fetchObservations_future_short_circuit_witness :
    startOfDay 0 < startOfDay 86400000 ∧
    fetchObservations 0 86400000 (some (0, [⟨0, 1⟩])) [⟨0, 2⟩] =
      ([], false) :=
  ⟨by decide,
    fetchObservations_future_short_circuit 0 86400000
      (some (0, [⟨0, 1⟩])) [⟨0, 2⟩] (by decide)⟩

end ShadyTimes
